import Mathlib

/-!
Shallow embedding of the unit/quantity algebra and AST node model of
`src/types.rs` (the `morph` units-aware expression language core), together
with proofs settling the frozen claims about it.

Numeric model: the source uses `rust_decimal::Decimal` (`pub type NumType =
Decimal`), an exact scaled decimal (96-bit mantissa, scale 0..28).  We model
it as `ℚ`: on the operations the source performs on these values
(addition, multiplication, negation via `* -1`, equality, `is_zero`,
`is_sign_negative`, `is_integer`) `Decimal` agrees with exact rational
arithmetic wherever it does not overflow; `Decimal` division rounds to 28
fractional digits where `ℚ` is exact, a difference none of the claims
touches.  `is_sign_negative` is only ever consulted on values that passed a
non-zero test, where it coincides with `< 0`.
-/

namespace Morph

/-- Models `pub type NumType = Decimal` (see the numeric-model note above). -/
abbrev NumType := ℚ

/-- Models `struct UnitAtom { name: &str, exp: Decimal }` (types.rs:269-273). -/
structure UnitAtom where
  name : String
  exp : NumType
deriving DecidableEq, Repr

/-- Models `UnitAtom::base` (types.rs:276-278): exponent 1. -/
def UnitAtom.base (name : String) : UnitAtom :=
  { name := name, exp := 1 }

/-- The comparison the source passes to the first sort in `Unit::mul`
(types.rs:340): `|a, b| a.name.cmp(b.name)`. -/
def nameLe (a b : UnitAtom) : Prop :=
  a.name ≤ b.name

instance : DecidableRel nameLe := fun a b =>
  inferInstanceAs (Decidable (a.name ≤ b.name))

instance : IsTotal UnitAtom nameLe :=
  ⟨fun a b => le_total a.name b.name⟩

instance : IsTrans UnitAtom nameLe :=
  ⟨fun _ _ _ h h' => le_trans h h'⟩

/-- Strict name order on atoms, used to state that merged atom lists carry
pairwise distinct names. -/
def ltName (a b : UnitAtom) : Prop :=
  a.name < b.name

instance : IsAntisymm UnitAtom ltName :=
  ⟨fun _ _ h h' => absurd h' (lt_asymm h)⟩

/-- Models `merged.sort_by(|a, b| a.name.cmp(b.name))` (types.rs:340).
`a.name.cmp(b.name)` is a total preorder, so Rust's stable `sort_by` computes
the unique stable sort by name, which is what insertion sort with the
non-strict relation `nameLe` computes. -/
def sortByName (l : List UnitAtom) : List UnitAtom :=
  l.insertionSort nameLe

/-- One iteration of the merge loop of `Unit::mul` (types.rs:346-358): state is
(result so far, the `current: Option<UnitAtom>` accumulator). -/
def mergeStep (st : List UnitAtom × Option UnitAtom) (u : UnitAtom) :
    List UnitAtom × Option UnitAtom :=
  match st.2 with
  | some c =>
    if c.name = u.name then
      (st.1, some { c with exp := c.exp + u.exp })
    else
      (st.1 ++ [c], some u)
  | none => (st.1, some u)

/-- The flush after the merge loop of `Unit::mul` (types.rs:360-362): push the
`current` accumulator, if any, onto the result. -/
def mergeFinish (st : List UnitAtom × Option UnitAtom) : List UnitAtom :=
  match st with
  | (res, some c) => res ++ [c]
  | (res, none) => res

/-- Models the merge loop of `Unit::mul` (types.rs:342-362): a linear scan with
a `current` accumulator that sums exponents of adjacent equal-named atoms and
pushes the accumulator when the name changes, flushing it at the end. -/
def mergeLoop (l : List UnitAtom) : List UnitAtom :=
  mergeFinish (l.foldl mergeStep ([], Option.none))

/-- Direct recursive description of run-merging adjacent equal-named atoms by
summing their exponents; proved below to coincide with `mergeLoop`, the
transcription of the imperative loop. -/
def mergeAdjacent : List UnitAtom → List UnitAtom
  | [] => []
  | [a] => [a]
  | a :: b :: rest =>
    if a.name = b.name then
      mergeAdjacent ({ a with exp := a.exp + b.exp } :: rest)
    else
      a :: mergeAdjacent (b :: rest)
termination_by l => l.length

/-- Models `result.retain(|unit| !unit.exp.is_zero())` (types.rs:364). -/
def dropZeros (l : List UnitAtom) : List UnitAtom :=
  l.filter fun u => ¬ u.exp = 0

/-- Models the final
`result.sort_by(|a, _| if a.exp.is_sign_negative() { Greater } else { Less })`
of `Unit::mul` (types.rs:365-368).

This comparator ignores its second argument, so for two non-negative atoms
`x`, `y` it reports both `x < y` and `y < x`: it is not a total order, and
Rust documents the resulting element order of `sort_by` as unspecified in
that case (its stability guarantee is about comparator-equal elements, and
this comparator never returns `Equal`).  The concrete behaviour of both
generations of Rust's stable slice sort is nevertheless fully determined
here.  Both the pre-1.81 timsort and the current driftsort run a binary
insertion sort on slices of at most 20 elements; with
`is_less a b := compare a b == Less`, i.e. `is_less a b := a` non-negative,
an inserted non-negative element shifts left past every element (the guard
`is_less tmp prev` holds regardless of `prev`), landing at index 0, while an
inserted negative element never moves (the guard is false regardless); by
induction the result is the non-negative elements in reverse order followed
by the negative elements in order.  (The classic demonstration of the same
effect is that `v.sort_by(|_, _| Ordering::Less)` reverses `v`.)  The
longer-slice code paths of the pre-1.81 timsort preserve the same shape:
a detected descending run is `x` followed by non-negatives and reversing it
preserves the shape, and a stable merge of two shaped runs `L = reverse PL ++
NL` and `R = reverse PR ++ NR` takes `R`'s head exactly while it is
non-negative, yielding `reverse PR ++ reverse PL ++ NL ++ NR =
reverse (PL ++ PR) ++ (NL ++ NR)`. -/
def signReorder (l : List UnitAtom) : List UnitAtom :=
  (l.filter fun u => ¬ u.exp < 0).reverse ++ (l.filter fun u => u.exp < 0)

/-- Models `struct Unit(Vec<UnitAtom>)` (types.rs:291-292). -/
structure Unit where
  atoms : List UnitAtom
deriving DecidableEq, Repr

/-- Models `Unit::none()` (types.rs:295-297): the empty, dimensionless unit. -/
def Unit.none : Unit :=
  ⟨[]⟩

/-- Models `impl From<UnitAtom> for Unit` (types.rs:300-304). -/
def Unit.ofAtom (a : UnitAtom) : Unit :=
  ⟨[a]⟩

/-- Models `impl ops::Mul for Unit` (types.rs:326-372): concatenate both atom
vectors, stable-sort by name, run the adjacent merge loop, drop zero
exponents, then the sign reorder of types.rs:365-368. -/
def Unit.mul (a b : Unit) : Unit :=
  ⟨signReorder (dropZeros (mergeLoop (sortByName (a.atoms ++ b.atoms))))⟩

/-- Models `impl ops::Div for Unit` (types.rs:375-384): multiply every
right-hand exponent by `-1`, then multiply. -/
def Unit.div (a b : Unit) : Unit :=
  a.mul ⟨b.atoms.map fun u => { u with exp := u.exp * (-1) }⟩

/-- Models `struct Quantity { value: Decimal, unit: Unit }` (types.rs:386-390). -/
structure Quantity where
  value : NumType
  unit : Unit
deriving DecidableEq, Repr

/-- Models `Quantity::new` (types.rs:393-398). -/
def Quantity.new (value : NumType) (unit : Unit) : Quantity :=
  { value := value, unit := unit }

/-- Models `Quantity::num` (types.rs:400-405): a dimensionless quantity. -/
def Quantity.num (value : NumType) : Quantity :=
  { value := value, unit := Unit.none }

/-- Models `impl ops::Add for Quantity` (types.rs:432-445): defined only when
the units are structurally equal; clones `self` and adds the right value, so
the unit of the result is `self.unit`. -/
def Quantity.add (a b : Quantity) : Option Quantity :=
  if a.unit = b.unit then some { a with value := a.value + b.value } else Option.none

/-- Models `impl ops::Sub for Quantity` (types.rs:447-455): multiplies the
right value by `-1` and delegates to addition. -/
def Quantity.sub (a b : Quantity) : Option Quantity :=
  Quantity.add a { b with value := b.value * (-1) }

/-- Models `impl ops::Mul for Quantity` (types.rs:457-464): always succeeds. -/
def Quantity.mul (a b : Quantity) : Option Quantity :=
  some (Quantity.new (a.value * b.value) (a.unit.mul b.unit))

/-- Models `impl ops::Div for Quantity` (types.rs:466-477): yields nothing when
the right value is zero, otherwise divides the values and the units. -/
def Quantity.div (a b : Quantity) : Option Quantity :=
  if b.value = 0 then Option.none
  else some (Quantity.new (a.value / b.value) (a.unit.div b.unit))

/-- Follows the spec's words for steps 1-4 of unit multiplication
(concatenate, stable-sort by name, merge adjacent equal names, drop zero
exponents), with no further reordering; for comparison with `Unit.mul`. -/
def specMergePipeline (a b : List UnitAtom) : List UnitAtom :=
  dropZeros (mergeAdjacent (sortByName (a ++ b)))

/-- Follows the spec's words for step 5 of unit multiplication: a stable
partition on exponent sign, non-negative atoms first, the relative order
inside each partition preserved; for comparison with the source's
`signReorder`. -/
def signPartitionSpec (l : List UnitAtom) : List UnitAtom :=
  (l.filter fun u => ¬ u.exp < 0) ++ (l.filter fun u => u.exp < 0)

/-- Total exponent carried by atoms named `n` in a list: the name-to-exponent
map of a unit, used to state content (as opposed to order) properties. -/
def sumExp (n : String) : List UnitAtom → NumType
  | [] => 0
  | u :: rest => (if u.name = n then u.exp else 0) + sumExp n rest

/-- The names of a list of atoms, in order. -/
def namesOf (l : List UnitAtom) : List String :=
  l.map UnitAtom.name

/-- Canonical-form invariant of the unit algebra's outputs: pairwise distinct
names, no zero exponent, and the atom order is the one the algebra itself
produces (name-sort followed by the sign reorder). -/
def CanonList (l : List UnitAtom) : Prop :=
  (namesOf l).Nodup ∧ (∀ u ∈ l, u.exp ≠ 0) ∧ l = signReorder (sortByName l)

/-- Models `Range<usize>` as used for source spans (`Node.range`).  Rust's
`Range { start, end }` is half-open; `end` is a Lean keyword, so the field is
called `stop`. -/
structure SrcRange where
  start : ℕ
  stop : ℕ
deriving DecidableEq, Repr

/-- Models `merge_ranges` (types.rs:141-150): picks as `smaller` the range
with the smaller start (the first on ties), then spans from `smaller.start`
to `bigger.end` — where `bigger` only means "the other one", not the range
with the bigger end. -/
def merge_ranges (r1 r2 : SrcRange) : SrcRange :=
  if r2.start < r1.start then { start := r2.start, stop := r1.stop }
  else { start := r1.start, stop := r2.stop }

mutual
/-- Models `enum NodeType` (types.rs:119-139). `Def` and `Unit` clash with
Lean names, so they become `defn` and `unit`. -/
inductive NodeType where
  | defn : String → NodeType
  | add : Node → Node → NodeType
  | sub : Node → Node → NodeType
  | mul : Node → Node → NodeType
  | div : Node → Node → NodeType
  | unit : String → NodeType
  | num : NumType → NodeType
  | assign : String → Node → NodeType
  | addAssign : String → Node → NodeType
  | subAssign : String → Node → NodeType
  | mulAssign : String → Node → NodeType
  | divAssign : String → Node → NodeType
  | scope : List Node → NodeType
  | err : NodeType

/-- Models `struct Node { typ: NodeType, range: Range<usize> }`
(types.rs:152-156). -/
inductive Node where
  | mk : NodeType → SrcRange → Node
end

/-- The `typ` field of a `Node`. -/
def Node.typ : Node → NodeType
  | .mk t _ => t

/-- The `range` field of a `Node`. -/
def Node.range : Node → SrcRange
  | .mk _ r => r

/-- Models `Node::new` (types.rs:159-164). -/
def Node.new (typ : NodeType) (range : SrcRange) : Node :=
  .mk typ range

/-- Models `Node::err` (types.rs:166-171). -/
def Node.err (range : SrcRange) : Node :=
  .mk NodeType.err range

/-- Models the `impl_node_op!(binop: Add)` expansion (types.rs:226-239, 261):
the result's range is `merge_ranges` of the operand ranges. -/
def Node.add (self rhs : Node) : Node :=
  .mk (NodeType.add self rhs) (merge_ranges self.range rhs.range)

/-- Models the `impl_node_op!(binop: Sub)` expansion (types.rs:226-239, 262). -/
def Node.sub (self rhs : Node) : Node :=
  .mk (NodeType.sub self rhs) (merge_ranges self.range rhs.range)

/-- Models the `impl_node_op!(binop: Mul)` expansion (types.rs:226-239, 259). -/
def Node.mul (self rhs : Node) : Node :=
  .mk (NodeType.mul self rhs) (merge_ranges self.range rhs.range)

/-- Models the `impl_node_op!(binop: Div)` expansion (types.rs:226-239, 260). -/
def Node.div (self rhs : Node) : Node :=
  .mk (NodeType.div self rhs) (merge_ranges self.range rhs.range)

/-- Models `Node::assign` (types.rs:174-182): only a `Unit(name)` leaf may be
turned into an `Assign` node; on every other node shape the source aborts
fatally (`panic`), modelled as `Option.none`. -/
def Node.assign (self other : Node) : Option Node :=
  match self.typ with
  | NodeType.unit name =>
    some (.mk (NodeType.assign name other) (merge_ranges self.range other.range))
  | _ => Option.none

/-- Models the `impl_node_op!(assign: AddAssign)` expansion (types.rs:241-256,
264): same shape as `Node.assign`, fatal (`Option.none`) off a `Unit` leaf. -/
def Node.addAssign (self other : Node) : Option Node :=
  match self.typ with
  | NodeType.unit name =>
    some (.mk (NodeType.addAssign name other) (merge_ranges self.range other.range))
  | _ => Option.none

/-- Models the `impl_node_op!(assign: SubAssign)` expansion (types.rs:241-256,
265). -/
def Node.subAssign (self other : Node) : Option Node :=
  match self.typ with
  | NodeType.unit name =>
    some (.mk (NodeType.subAssign name other) (merge_ranges self.range other.range))
  | _ => Option.none

/-- Models the `impl_node_op!(assign: MulAssign)` expansion (types.rs:241-256,
266). -/
def Node.mulAssign (self other : Node) : Option Node :=
  match self.typ with
  | NodeType.unit name =>
    some (.mk (NodeType.mulAssign name other) (merge_ranges self.range other.range))
  | _ => Option.none

/-- Models the `impl_node_op!(assign: DivAssign)` expansion (types.rs:241-256,
267). -/
def Node.divAssign (self other : Node) : Option Node :=
  match self.typ with
  | NodeType.unit name =>
    some (.mk (NodeType.divAssign name other) (merge_ranges self.range other.range))
  | _ => Option.none

/-- Rendering of a numeric value as text.  `rust_decimal`'s `Display` prints
the exact scaled-decimal digits; on the integral values the display claims
exercise, that is the plain integer digit string, which is what this returns
(non-integral rationals, which `ℚ` cannot render scale-faithfully, are shown
as `num/den` — no claim depends on that case). -/
def renderQ (q : NumType) : String :=
  if q.den = 1 then toString q.num else toString q.num ++ "/" ++ toString q.den

/-- Models `impl fmt::Display for UnitAtom` (types.rs:281-289): the bare name
when `exp.is_integer() && exp == 1`, otherwise `name^exp`. -/
def UnitAtom.display (u : UnitAtom) : String :=
  if u.exp.den = 1 ∧ u.exp = 1 then u.name
  else u.name ++ "^" ++ renderQ u.exp

/-- The `split_last` loop of `impl fmt::Display for Unit` (types.rs:314-320):
every atom but the last is followed by a space, the last by `]`. -/
def displayAtoms : List UnitAtom → String
  | [] => ""
  | [a] => a.display ++ "]"
  | a :: rest => a.display ++ " " ++ displayAtoms rest

/-- Models `impl fmt::Display for Unit` (types.rs:306-324): the empty string
for no atoms, otherwise the atoms wrapped in brackets. -/
def Unit.display (x : Unit) : String :=
  match x.atoms with
  | [] => ""
  | _ => "[" ++ displayAtoms x.atoms

/-- Models `impl fmt::Display for Quantity` (types.rs:426-430):
`"{value} {unit}"`. -/
def Quantity.display (q : Quantity) : String :=
  renderQ q.value ++ " " ++ q.unit.display

/-! ### The imperative merge loop computes the recursive adjacent merge -/

theorem foldl_mergeStep_eq (l : List UnitAtom) :
    ∀ (acc : List UnitAtom) (c : UnitAtom),
      mergeFinish (l.foldl mergeStep (acc, some c)) = acc ++ mergeAdjacent (c :: l) := by
  induction l with
  | nil =>
    intro acc c
    simp [mergeFinish, mergeAdjacent]
  | cons u rest ih =>
    intro acc c
    by_cases h : c.name = u.name
    · rw [List.foldl_cons,
        show mergeStep (acc, some c) u = (acc, some { c with exp := c.exp + u.exp }) from by
          simp [mergeStep, h],
        ih acc _, mergeAdjacent, if_pos h]
    · rw [List.foldl_cons,
        show mergeStep (acc, some c) u = (acc ++ [c], some u) from by
          simp [mergeStep, h],
        ih (acc ++ [c]) u, mergeAdjacent, if_neg h]
      simp

theorem mergeLoop_eq_mergeAdjacent : ∀ l, mergeLoop l = mergeAdjacent l
  | [] => by simp [mergeLoop, mergeFinish, mergeAdjacent]
  | x :: xs => by
    simpa [mergeLoop, List.foldl, mergeStep] using foldl_mergeStep_eq xs [] x

/-! ### Name-to-exponent bookkeeping -/

theorem sumExp_append (n : String) (l₁ l₂ : List UnitAtom) :
    sumExp n (l₁ ++ l₂) = sumExp n l₁ + sumExp n l₂ := by
  induction l₁ with
  | nil => simp [sumExp]
  | cons u rest ih => simp [sumExp, ih]; ring

theorem sumExp_perm (n : String) {l₁ l₂ : List UnitAtom} (h : l₁.Perm l₂) :
    sumExp n l₁ = sumExp n l₂ := by
  induction h with
  | nil => rfl
  | cons x _ ih => simp [sumExp, ih]
  | swap x y l => simp [sumExp]; ring
  | trans _ _ ih₁ ih₂ => exact ih₁.trans ih₂

theorem sumExp_mergeAdjacent (n : String) : ∀ l, sumExp n (mergeAdjacent l) = sumExp n l
  | [] => by simp [mergeAdjacent]
  | [a] => by simp [mergeAdjacent]
  | a :: b :: rest => by
    by_cases h : a.name = b.name
    · rw [mergeAdjacent, if_pos h,
        sumExp_mergeAdjacent n ({ a with exp := a.exp + b.exp } :: rest)]
      simp only [sumExp]
      rw [h]
      by_cases hn : b.name = n <;> simp [hn] <;> ring
    · rw [mergeAdjacent, if_neg h]
      simp [sumExp, sumExp_mergeAdjacent n (b :: rest)]
termination_by l => l.length

theorem sumExp_negMap (n : String) (l : List UnitAtom) :
    sumExp n (l.map fun u => { u with exp := u.exp * (-1) }) = -(sumExp n l) := by
  induction l with
  | nil => simp [sumExp]
  | cons u rest ih =>
    simp only [List.map_cons, sumExp, ih]
    by_cases hn : u.name = n <;> simp [hn] <;> ring

theorem sumExp_eq_zero_of_not_mem {n : String} {l : List UnitAtom}
    (h : n ∉ namesOf l) : sumExp n l = 0 := by
  induction l with
  | nil => rfl
  | cons u rest ih =>
    simp only [namesOf, List.map_cons, List.mem_cons, not_or] at h
    rw [sumExp, if_neg (fun hu => h.1 hu.symm), ih h.2]
    simp

/-! ### Sortedness, strictness and uniqueness of the canonical atom order -/

theorem sorted_sortByName (l : List UnitAtom) : List.Sorted nameLe (sortByName l) :=
  List.sorted_insertionSort nameLe l

theorem perm_sortByName (l : List UnitAtom) : (sortByName l).Perm l :=
  List.perm_insertionSort nameLe l

theorem mergeAdjacent_name_mem :
    ∀ l, ∀ x ∈ mergeAdjacent l, x.name ∈ namesOf l
  | [] => by simp [mergeAdjacent]
  | [a] => by simp [mergeAdjacent, namesOf]
  | a :: b :: rest => by
    intro x hx
    by_cases h : a.name = b.name
    · rw [mergeAdjacent, if_pos h] at hx
      have := mergeAdjacent_name_mem ({ a with exp := a.exp + b.exp } :: rest) x hx
      simp only [namesOf, List.map_cons, List.mem_cons] at this ⊢
      tauto
    · rw [mergeAdjacent, if_neg h] at hx
      rcases List.mem_cons.1 hx with hxa | hx'
      · simp [hxa, namesOf]
      · have := mergeAdjacent_name_mem (b :: rest) x hx'
        simp only [namesOf, List.map_cons, List.mem_cons] at this ⊢
        tauto
termination_by l => l.length

theorem mergeAdjacent_strict :
    ∀ l, List.Sorted nameLe l → List.Pairwise ltName (mergeAdjacent l)
  | [] => by simp [mergeAdjacent]
  | [a] => by simp [mergeAdjacent]
  | a :: b :: rest => by
    intro hs
    rcases List.pairwise_cons.1 hs with ⟨hab, hs'⟩
    by_cases h : a.name = b.name
    · rw [mergeAdjacent, if_pos h]
      refine mergeAdjacent_strict ({ a with exp := a.exp + b.exp } :: rest) ?_
      refine List.pairwise_cons.2 ⟨fun r hr => ?_, (List.pairwise_cons.1 hs').2⟩
      exact hab r (List.mem_cons_of_mem b hr)
    · rw [mergeAdjacent, if_neg h]
      refine List.pairwise_cons.2 ⟨fun x hx => ?_, mergeAdjacent_strict (b :: rest) hs'⟩
      have hxn := mergeAdjacent_name_mem (b :: rest) x hx
      have halt : a.name < b.name :=
        lt_of_le_of_ne (hab b (List.mem_cons_self b rest)) h
      simp only [namesOf, List.map_cons, List.mem_cons, List.mem_map] at hxn
      rcases hxn with hxb | ⟨r, hr, hrx⟩
      · show a.name < x.name
        rw [hxb]
        exact halt
      · have hbr : b.name ≤ r.name := (List.pairwise_cons.1 hs').1 r hr
        show a.name < x.name
        rw [← hrx]
        exact lt_of_lt_of_le halt hbr
termination_by l => l.length

theorem nodup_names_of_strict {l : List UnitAtom}
    (h : List.Pairwise ltName l) : (namesOf l).Nodup := by
  show List.Pairwise (fun a b => a ≠ b) (l.map UnitAtom.name)
  exact List.pairwise_map.mpr (h.imp fun hab => ne_of_lt hab)

theorem strict_of_sorted_nodup {l : List UnitAtom}
    (hs : List.Sorted nameLe l) (hn : (namesOf l).Nodup) :
    List.Pairwise ltName l := by
  have hne : List.Pairwise (fun a b : UnitAtom => a.name ≠ b.name) l :=
    List.pairwise_map.mp hn
  exact (hs.and hne).imp fun hab => lt_of_le_of_ne hab.1 hab.2

theorem eq_of_perm_of_strict {l₁ l₂ : List UnitAtom} (p : l₁.Perm l₂)
    (h₁ : List.Pairwise ltName l₁) (h₂ : List.Pairwise ltName l₂) : l₁ = l₂ :=
  List.eq_of_perm_of_sorted p h₁ h₂

theorem sorted_nodup_unique {l₁ l₂ : List UnitAtom} (p : l₁.Perm l₂)
    (h₁ : List.Sorted nameLe l₁) (h₂ : List.Sorted nameLe l₂)
    (hn : (namesOf l₁).Nodup) : l₁ = l₂ := by
  have hn₂ : (namesOf l₂).Nodup := ((p.map UnitAtom.name).nodup_iff).1 hn
  exact eq_of_perm_of_strict p (strict_of_sorted_nodup h₁ hn) (strict_of_sorted_nodup h₂ hn₂)

theorem signReorder_perm (l : List UnitAtom) : (signReorder l).Perm l := by
  have h := List.filter_append_perm (fun u : UnitAtom => decide ¬ u.exp < 0) l
  refine List.Perm.trans ?_ h
  refine List.Perm.append ((l.filter _).reverse_perm) ?_
  have : (fun x : UnitAtom => !decide ¬ x.exp < 0) = fun x : UnitAtom => decide (x.exp < 0) := by
    funext x
    by_cases hx : x.exp < 0 <;> simp [hx]
  rw [this]

/-! ### Canonical form of the algebra's outputs -/

theorem mulAtoms_eq (a b : Unit) :
    (Unit.mul a b).atoms =
      signReorder (dropZeros (mergeAdjacent (sortByName (a.atoms ++ b.atoms)))) := by
  simp [Unit.mul, mergeLoop_eq_mergeAdjacent]

theorem mem_dropZeros {u : UnitAtom} {l : List UnitAtom} :
    u ∈ dropZeros l ↔ u ∈ l ∧ u.exp ≠ 0 := by
  simp [dropZeros]

theorem dropZeros_strict {l : List UnitAtom} (h : List.Pairwise ltName l) :
    List.Pairwise ltName (dropZeros l) :=
  h.sublist (List.filter_sublist l)

theorem mergeAdjacent_eq_self :
    ∀ l : List UnitAtom, (namesOf l).Nodup → mergeAdjacent l = l
  | [] => fun _ => by simp [mergeAdjacent]
  | [a] => fun _ => by simp [mergeAdjacent]
  | a :: b :: rest => fun h => by
    rw [namesOf, List.map_cons, List.nodup_cons] at h
    have hne : ¬ a.name = b.name := by
      intro hab
      exact h.1 (by simp [hab])
    rw [mergeAdjacent, if_neg hne, mergeAdjacent_eq_self (b :: rest) h.2]
termination_by l => l.length

theorem dropZeros_eq_self {l : List UnitAtom} (h : ∀ u ∈ l, u.exp ≠ 0) :
    dropZeros l = l := by
  rw [dropZeros, List.filter_eq_self]
  intro u hu
  simpa using h u hu

theorem sorted_of_strict {l : List UnitAtom} (h : List.Pairwise ltName l) :
    List.Sorted nameLe l :=
  h.imp fun hab => le_of_lt hab

theorem canon_signReorder {D : List UnitAtom} (hs : List.Sorted nameLe D)
    (hn : (namesOf D).Nodup) (hz : ∀ u ∈ D, u.exp ≠ 0) :
    CanonList (signReorder D) := by
  have hperm : (signReorder D).Perm D := signReorder_perm D
  have hnames : (namesOf (signReorder D)).Nodup :=
    ((hperm.map UnitAtom.name).nodup_iff).2 hn
  refine ⟨hnames, fun u hu => hz u (hperm.mem_iff.1 hu), ?_⟩
  have hsortperm : (sortByName (signReorder D)).Perm D :=
    (perm_sortByName (signReorder D)).trans hperm
  have hsorteq : sortByName (signReorder D) = D :=
    sorted_nodup_unique hsortperm (sorted_sortByName _) hs
      (((hsortperm.map UnitAtom.name).nodup_iff).2 hn)
  rw [hsorteq]

theorem canon_mul (a b : Unit) : CanonList (Unit.mul a b).atoms := by
  rw [mulAtoms_eq]
  have hstrict : List.Pairwise ltName (dropZeros (mergeAdjacent (sortByName (a.atoms ++ b.atoms)))) :=
    dropZeros_strict (mergeAdjacent_strict _ (sorted_sortByName _))
  exact canon_signReorder (sorted_of_strict hstrict) (nodup_names_of_strict hstrict)
    (fun u hu => (mem_dropZeros.1 hu).2)

theorem canon_div (a b : Unit) : CanonList (Unit.div a b).atoms :=
  canon_mul a _

theorem mul_none_of_canon {l : List UnitAtom} (h : CanonList l) :
    Unit.mul ⟨l⟩ Unit.none = ⟨l⟩ ∧ Unit.mul Unit.none ⟨l⟩ = ⟨l⟩ := by
  obtain ⟨hn, hz, hcanon⟩ := h
  have hnames : (namesOf (sortByName l)).Nodup :=
    (((perm_sortByName l).map UnitAtom.name).nodup_iff).2 hn
  have hz' : ∀ u ∈ sortByName l, u.exp ≠ 0 :=
    fun u hu => hz u ((perm_sortByName l).mem_iff.1 hu)
  have key : Unit.mk (signReorder (dropZeros (mergeLoop (sortByName l)))) = ⟨l⟩ := by
    rw [mergeLoop_eq_mergeAdjacent, mergeAdjacent_eq_self _ hnames, dropZeros_eq_self hz',
      ← hcanon]
  constructor
  · show Unit.mk (signReorder (dropZeros (mergeLoop (sortByName (l ++ []))))) = ⟨l⟩
    rw [List.append_nil]
    exact key
  · exact key

/-! ### Content equality: the name-to-exponent map determines canonical lists -/

theorem exp_eq_sumExp {l : List UnitAtom} (hn : (namesOf l).Nodup) :
    ∀ u ∈ l, u.exp = sumExp u.name l := by
  induction l with
  | nil => simp
  | cons v rest ih =>
    rw [namesOf, List.map_cons, List.nodup_cons] at hn
    intro u hu
    rcases List.mem_cons.1 hu with rfl | hu'
    · rw [sumExp, if_pos rfl, sumExp_eq_zero_of_not_mem hn.1]
      simp
    · have hne : ¬ v.name = u.name := by
        intro hv
        exact hn.1 (hv ▸ List.mem_map.2 ⟨u, hu', rfl⟩)
      rw [sumExp, if_neg hne, ih hn.2 u hu']
      simp

theorem mem_names_of_sumExp_ne_zero {l : List UnitAtom} {n : String}
    (h : sumExp n l ≠ 0) : n ∈ namesOf l := by
  by_contra hc
  exact h (sumExp_eq_zero_of_not_mem hc)

theorem subset_of_canon_sumExp {la lb : List UnitAtom}
    (hna : (namesOf la).Nodup) (hnb : (namesOf lb).Nodup)
    (hza : ∀ u ∈ la, u.exp ≠ 0)
    (hsum : ∀ n, sumExp n la = sumExp n lb) : ∀ u ∈ la, u ∈ lb := by
  intro u hu
  have he : u.exp = sumExp u.name la := exp_eq_sumExp hna u hu
  have hne : sumExp u.name lb ≠ 0 := by
    rw [← hsum, ← he]
    exact hza u hu
  obtain ⟨v, hv, hvn⟩ := List.mem_map.1 (mem_names_of_sumExp_ne_zero hne)
  have hexp : v.exp = u.exp := by
    rw [exp_eq_sumExp hnb v hv, hvn, ← hsum, ← he]
  have : v = u := by
    cases u
    cases v
    simp_all
  exact this ▸ hv

theorem perm_of_canon_sumExp {l₁ l₂ : List UnitAtom}
    (h₁ : CanonList l₁) (h₂ : CanonList l₂)
    (h : ∀ n, sumExp n l₁ = sumExp n l₂) : l₁.Perm l₂ := by
  obtain ⟨hn₁, hz₁, _⟩ := h₁
  obtain ⟨hn₂, hz₂, _⟩ := h₂
  refine (List.perm_ext_iff_of_nodup (hn₁.of_map UnitAtom.name) (hn₂.of_map UnitAtom.name)).2
    fun u => ⟨fun hu => ?_, fun hu => ?_⟩
  · exact subset_of_canon_sumExp hn₁ hn₂ hz₁ h u hu
  · exact subset_of_canon_sumExp hn₂ hn₁ hz₂ (fun n => (h n).symm) u hu

theorem canon_eq_of_perm {l₁ l₂ : List UnitAtom} (h₁ : CanonList l₁) (h₂ : CanonList l₂)
    (p : l₁.Perm l₂) : l₁ = l₂ := by
  obtain ⟨hn₁, _, hc₁⟩ := h₁
  obtain ⟨hn₂, _, hc₂⟩ := h₂
  have hsorteq : sortByName l₁ = sortByName l₂ :=
    sorted_nodup_unique ((perm_sortByName l₁).trans (p.trans (perm_sortByName l₂).symm))
      (sorted_sortByName _) (sorted_sortByName _)
      (((perm_sortByName l₁).map UnitAtom.name).nodup_iff.2 hn₁)
  rw [hc₁, hc₂, hsorteq]

theorem canon_eq_iff_sumExp {l₁ l₂ : List UnitAtom} (h₁ : CanonList l₁)
    (h₂ : CanonList l₂) : l₁ = l₂ ↔ ∀ n, sumExp n l₁ = sumExp n l₂ :=
  ⟨fun h n => by rw [h], fun h => canon_eq_of_perm h₁ h₂ (perm_of_canon_sumExp h₁ h₂ h)⟩

/-! ### Cancellation: a unit divided by itself is dimensionless -/

theorem div_self_eq_none (A : Unit) : Unit.div A A = Unit.none := by
  simp only [Unit.div, Unit.mul, mergeLoop_eq_mergeAdjacent]
  have hsum : ∀ n,
      sumExp n (sortByName (A.atoms ++ A.atoms.map fun u => { u with exp := u.exp * (-1) })) = 0 := by
    intro n
    rw [sumExp_perm n (perm_sortByName _), sumExp_append, sumExp_negMap]
    ring
  have hstrict := mergeAdjacent_strict _
    (sorted_sortByName (A.atoms ++ A.atoms.map fun u => { u with exp := u.exp * (-1) }))
  have hzero : ∀ u ∈ mergeAdjacent
      (sortByName (A.atoms ++ A.atoms.map fun u => { u with exp := u.exp * (-1) })), u.exp = 0 := by
    intro u hu
    rw [exp_eq_sumExp (nodup_names_of_strict hstrict) u hu, sumExp_mergeAdjacent, hsum]
  have hdrop : dropZeros (mergeAdjacent
      (sortByName (A.atoms ++ A.atoms.map fun u => { u with exp := u.exp * (-1) }))) = [] := by
    rw [dropZeros, List.filter_eq_nil_iff]
    intro u hu
    simp [hzero u hu]
  rw [hdrop]
  rfl

/-! ### Shape of the sign reorder -/

theorem signReorder_filter_neg (m : List UnitAtom) :
    (signReorder m).filter (fun u => u.exp < 0) = m.filter (fun u => u.exp < 0) := by
  rw [signReorder, List.filter_append]
  have h1 : ((m.filter fun u => ¬ u.exp < 0).reverse.filter fun u => u.exp < 0) = [] := by
    rw [List.filter_eq_nil_iff]
    intro u hu
    have hm := List.mem_filter.1 (List.mem_reverse.1 hu)
    simpa using of_decide_eq_true hm.2
  have h2 : ((m.filter fun u => u.exp < 0).filter fun u => u.exp < 0) =
      m.filter fun u => u.exp < 0 := by
    rw [List.filter_eq_self]
    intro u hu
    exact (List.mem_filter.1 hu).2
  rw [h1, h2, List.nil_append]

theorem signReorder_filter_nonneg (m : List UnitAtom) :
    (signReorder m).filter (fun u => ¬ u.exp < 0) =
      (m.filter fun u => ¬ u.exp < 0).reverse := by
  rw [signReorder, List.filter_append]
  have h1 : ((m.filter fun u => ¬ u.exp < 0).reverse.filter fun u => ¬ u.exp < 0) =
      (m.filter fun u => ¬ u.exp < 0).reverse := by
    rw [List.filter_eq_self]
    intro u hu
    exact (List.mem_filter.1 (List.mem_reverse.1 hu)).2
  have h2 : ((m.filter fun u => u.exp < 0).filter fun u => ¬ u.exp < 0) = [] := by
    rw [List.filter_eq_nil_iff]
    intro u hu
    have hm := List.mem_filter.1 hu
    simp [of_decide_eq_true hm.2]
  rw [h1, h2, List.append_nil]

/-- In any `signReorder` output, once a negative exponent appears every later
atom also has a negative exponent. -/
theorem signReorder_neg_mono (m : List UnitAtom) (i j : ℕ) (hij : i ≤ j)
    (hj : j < (signReorder m).length)
    (hi : ((signReorder m).getD i ⟨"", 0⟩).exp < 0) :
    ((signReorder m).getD j ⟨"", 0⟩).exp < 0 := by
  have hi' : i < (signReorder m).length := lt_of_le_of_lt hij hj
  have hmemP : ∀ u ∈ (m.filter fun u => ¬ u.exp < 0).reverse, ¬ u.exp < 0 := by
    intro u hu
    exact of_decide_eq_true (List.mem_filter.1 (List.mem_reverse.1 hu)).2
  have hmemN : ∀ u ∈ (m.filter fun u => u.exp < 0), u.exp < 0 := by
    intro u hu
    exact of_decide_eq_true (List.mem_filter.1 hu).2
  have hiP : ¬ i < (m.filter fun u => ¬ u.exp < 0).reverse.length := by
    intro hiP
    rw [List.getD_eq_getElem?_getD, signReorder, List.getElem?_append_left hiP,
      List.getElem?_eq_getElem hiP] at hi
    exact hmemP _ (List.getElem_mem hiP) hi
  have hjP : (m.filter fun u => ¬ u.exp < 0).reverse.length ≤ j :=
    le_trans (le_of_not_lt hiP) hij
  have hj' : j - (m.filter fun u => ¬ u.exp < 0).reverse.length <
      (m.filter fun u => u.exp < 0).length := by
    rw [signReorder, List.length_append] at hj
    omega
  rw [List.getD_eq_getElem?_getD, signReorder, List.getElem?_append_right hjP,
    List.getElem?_eq_getElem hj']
  exact hmemN _ (List.getElem_mem hj')

theorem Unit.eq_of_atoms {x y : Unit} (h : x.atoms = y.atoms) : x = y := by
  cases x
  cases y
  cases h
  rfl

/-! ### The claims -/

/-- C4: quantity addition succeeds exactly when the two units are structurally
equal, in which case the value is the arithmetic sum and the unit is
preserved; on differing units it yields no result; and subtraction is
addition of the right operand with its value negated, hence obeys the same
gate and yields the difference. -/
theorem claim_C4 (q1 q2 : Quantity) :
    (q1.unit = q2.unit →
      Quantity.add q1 q2 = some { value := q1.value + q2.value, unit := q1.unit }) ∧
    (q1.unit ≠ q2.unit → Quantity.add q1 q2 = Option.none) ∧
    (Quantity.sub q1 q2 = Quantity.add q1 { value := q2.value * (-1), unit := q2.unit }) ∧
    (q1.unit = q2.unit →
      Quantity.sub q1 q2 = some { value := q1.value - q2.value, unit := q1.unit }) := by
  refine ⟨fun h => ?_, fun h => ?_, rfl, fun h => ?_⟩
  · rw [Quantity.add, if_pos h]
  · rw [Quantity.add, if_neg h]
  · simp only [Quantity.sub, Quantity.add]
    rw [if_pos h]
    simp only [Option.some.injEq, Quantity.mk.injEq, and_true]
    ring

/-- Witness for C4 at the spec's own examples: `5 [m] + 3 [m] = 8 [m]`,
`5 [m] + 3 [s]` has no result, and `5 [m] - 3 [m] = 2 [m]`. -/
theorem claim_C4_witness :
    Quantity.add (Quantity.new 5 (Unit.ofAtom (UnitAtom.base "m")))
        (Quantity.new 3 (Unit.ofAtom (UnitAtom.base "m")))
      = some (Quantity.new 8 (Unit.ofAtom (UnitAtom.base "m"))) ∧
    Quantity.add (Quantity.new 5 (Unit.ofAtom (UnitAtom.base "m")))
        (Quantity.new 3 (Unit.ofAtom (UnitAtom.base "s")))
      = Option.none ∧
    Quantity.sub (Quantity.new 5 (Unit.ofAtom (UnitAtom.base "m")))
        (Quantity.new 3 (Unit.ofAtom (UnitAtom.base "m")))
      = some (Quantity.new 2 (Unit.ofAtom (UnitAtom.base "m"))) := by
  refine ⟨?_, ?_, ?_⟩
  · rw [(claim_C4 (Quantity.new 5 (Unit.ofAtom (UnitAtom.base "m")))
        (Quantity.new 3 (Unit.ofAtom (UnitAtom.base "m")))).1 rfl]
    norm_num [Quantity.new]
  · refine (claim_C4 _ _).2.1 ?_
    intro h
    simp +decide [Quantity.new, Unit.ofAtom, UnitAtom.base] at h
  · rw [(claim_C4 (Quantity.new 5 (Unit.ofAtom (UnitAtom.base "m")))
        (Quantity.new 3 (Unit.ofAtom (UnitAtom.base "m")))).2.2.2 rfl]
    norm_num [Quantity.new]

/-- C5: quantity division yields no result exactly when the right operand's
numeric value is zero (whatever its unit); otherwise the value is the
quotient of the values and the unit the quotient of the units. -/
theorem claim_C5 (q1 q2 : Quantity) :
    (Quantity.div q1 q2 = Option.none ↔ q2.value = 0) ∧
    (q2.value ≠ 0 →
      Quantity.div q1 q2 = some (Quantity.new (q1.value / q2.value) (q1.unit.div q2.unit))) := by
  constructor
  · rw [Quantity.div]
    split_ifs with h
    · simp [h]
    · simp [h]
  · intro h
    rw [Quantity.div, if_neg h]

/-- Witness for C5 at the spec's own examples: `10 / 0` has no result and
`10 / 2 = 5` on dimensionless quantities. -/
theorem claim_C5_witness :
    Quantity.div (Quantity.num 10) (Quantity.num 0) = Option.none ∧
    Quantity.div (Quantity.num 10) (Quantity.num 2) = some (Quantity.num 5) := by
  constructor
  · exact (claim_C5 _ _).1.2 rfl
  · rw [(claim_C5 _ _).2 (by norm_num [Quantity.num])]
    simp only [Quantity.new, Quantity.num, Option.some.injEq, Quantity.mk.injEq]
    constructor
    · norm_num
    · exact div_self_eq_none Unit.none

/-- C6: any unit divided by itself canonicalizes to the empty, dimensionless
unit (no non-degeneracy assumption is even needed), and in particular the
single-atom product `m^1 * m^-1` canonicalizes to `Unit.none`. -/
theorem claim_C6 :
    (∀ A : Unit, Unit.div A A = Unit.none) ∧
    Unit.mul (Unit.ofAtom (UnitAtom.base "m")) (Unit.ofAtom ⟨"m", -1⟩) = Unit.none := by
  refine ⟨div_self_eq_none, ?_⟩
  norm_num +decide [Unit.mul, Unit.ofAtom, UnitAtom.base, Unit.none, sortByName, mergeLoop,
    mergeFinish, mergeStep, dropZeros, signReorder, nameLe]

/-- C7 as stated is false: multiplying by `Unit.none` re-canonicalizes the
atom order, so a unit whose atoms are not in canonical order (here
`[m^-1, s^1]`, negative exponent first) is not returned unchanged — on either
side. -/
theorem claim_C7_counterexample :
    Unit.mul (Unit.mk [⟨"m", -1⟩, ⟨"s", 1⟩]) Unit.none ≠ Unit.mk [⟨"m", -1⟩, ⟨"s", 1⟩] ∧
    Unit.mul Unit.none (Unit.mk [⟨"m", -1⟩, ⟨"s", 1⟩]) ≠ Unit.mk [⟨"m", -1⟩, ⟨"s", 1⟩] := by
  constructor <;>
    norm_num +decide [Unit.mul, Unit.none, sortByName, mergeLoop, mergeFinish, mergeStep,
      dropZeros, signReorder, nameLe]

/-- C7 amended: multiplying by `Unit.none` (on either side) is the identity on
units already in canonical form — in particular on every output of unit
multiplication (and hence division). -/
theorem claim_C7 (a b : Unit) :
    Unit.mul (Unit.mul a b) Unit.none = Unit.mul a b ∧
    Unit.mul Unit.none (Unit.mul a b) = Unit.mul a b :=
  mul_none_of_canon (canon_mul a b)

/-- C10: every output of unit multiplication or division carries pairwise
distinct atom names and no zero exponent — whatever the inputs — and on such
outputs structural equality coincides with equality of the name-to-exponent
maps. -/
theorem claim_C10 (a b : Unit) :
    ((namesOf (Unit.mul a b).atoms).Nodup ∧ ∀ u ∈ (Unit.mul a b).atoms, u.exp ≠ 0) ∧
    ((namesOf (Unit.div a b).atoms).Nodup ∧ ∀ u ∈ (Unit.div a b).atoms, u.exp ≠ 0) ∧
    (∀ c d : Unit, Unit.mul a b = Unit.mul c d ↔
      ∀ n, sumExp n (Unit.mul a b).atoms = sumExp n (Unit.mul c d).atoms) ∧
    (∀ c d : Unit, Unit.div a b = Unit.div c d ↔
      ∀ n, sumExp n (Unit.div a b).atoms = sumExp n (Unit.div c d).atoms) := by
  obtain ⟨h1, h2, h3⟩ := canon_mul a b
  obtain ⟨h1', h2', h3'⟩ := canon_div a b
  refine ⟨⟨h1, h2⟩, ⟨h1', h2'⟩, fun c d => ?_, fun c d => ?_⟩
  · constructor
    · intro h n
      rw [h]
    · intro h
      exact Unit.eq_of_atoms
        ((canon_eq_iff_sumExp (canon_mul a b) (canon_mul c d)).2 h)
  · constructor
    · intro h n
      rw [h]
    · intro h
      exact Unit.eq_of_atoms
        ((canon_eq_iff_sumExp (canon_div a b) (canon_div c d)).2 h)

/-- C1 as stated is false: the result of unit multiplication is not the
output of concatenate/sort-by-name/merge/drop-zeros alone — the source
additionally reorders the survivors by exponent sign.  At `[m^-1] * [s^1]`
the described pipeline ends with `[m^-1, s^1]` (name order) while the source
returns `[s^1, m^-1]`. -/
theorem claim_C1_counterexample :
    Unit.mul (Unit.mk [⟨"m", -1⟩]) (Unit.mk [⟨"s", 1⟩]) ≠
      Unit.mk (specMergePipeline [⟨"m", -1⟩] [⟨"s", 1⟩]) := by
  norm_num +decide [Unit.mul, specMergePipeline, sortByName, mergeLoop, mergeFinish,
    mergeStep, mergeAdjacent, dropZeros, signReorder, nameLe]

/-- C1 amended: unit multiplication produces its result by concatenating both
atom sequences, stable-sorting by name, merging adjacent equal-named atoms by
summing exponents, dropping atoms whose merged exponent is exactly zero, and
finally applying the sign reorder of types.rs:365-368 to the survivors. -/
theorem claim_C1 (a b : Unit) :
    Unit.mul a b = Unit.mk (signReorder (specMergePipeline a.atoms b.atoms)) :=
  Unit.eq_of_atoms (by rw [mulAtoms_eq, specMergePipeline])

/-- C2 as stated is false: the final reorder is not a stable partition on
sign.  At `[a^1] * [b^1]` the merge step produces `[a^1, b^1]` and a stable
partition would keep that order, but the source returns `[b^1, a^1]`: the
comparator passed to `sort_by` ignores its second argument, and Rust's stable
sort then carries every non-negative atom to the front, reversing them. -/
theorem claim_C2_counterexample :
    (Unit.mul (Unit.mk [⟨"a", 1⟩]) (Unit.mk [⟨"b", 1⟩])).atoms ≠
      signPartitionSpec (specMergePipeline [⟨"a", 1⟩] [⟨"b", 1⟩]) := by
  norm_num +decide [Unit.mul, specMergePipeline, signPartitionSpec, sortByName, mergeLoop,
    mergeFinish, mergeStep, mergeAdjacent, dropZeros, signReorder, nameLe]

/-- C2 amended: in the atom sequence returned by unit multiplication every
atom with a non-negative exponent precedes every atom with a negative
exponent; the negative-exponent atoms keep exactly their relative order from
the merge step, while the non-negative-exponent atoms appear in the reverse
of their merge-step order. -/
theorem claim_C2 (a b : Unit) :
    ((Unit.mul a b).atoms.filter (fun u => u.exp < 0) =
      (specMergePipeline a.atoms b.atoms).filter (fun u => u.exp < 0)) ∧
    ((Unit.mul a b).atoms.filter (fun u => ¬ u.exp < 0) =
      ((specMergePipeline a.atoms b.atoms).filter (fun u => ¬ u.exp < 0)).reverse) ∧
    (∀ i j : ℕ, i ≤ j → j < (Unit.mul a b).atoms.length →
      ((Unit.mul a b).atoms.getD i ⟨"", 0⟩).exp < 0 →
      ((Unit.mul a b).atoms.getD j ⟨"", 0⟩).exp < 0) := by
  refine ⟨?_, ?_, ?_⟩
  · rw [mulAtoms_eq, specMergePipeline, signReorder_filter_neg]
  · rw [mulAtoms_eq, specMergePipeline, signReorder_filter_nonneg]
  · intro i j hij hj hi
    rw [mulAtoms_eq] at hj hi ⊢
    exact signReorder_neg_mono _ i j hij hj hi

/-- Witness for C2 at `[a^-1] * [m^-1]`: the filter equations hold and the
positional property fires at indices 0 ≤ 1 with both atoms negative. -/
theorem claim_C2_witness :
    ((Unit.mul (Unit.mk [⟨"a", -1⟩]) (Unit.mk [⟨"m", -1⟩])).atoms.filter
        (fun u => u.exp < 0) =
      (specMergePipeline [⟨"a", -1⟩] [⟨"m", -1⟩]).filter (fun u => u.exp < 0)) ∧
    ((Unit.mul (Unit.mk [⟨"a", -1⟩]) (Unit.mk [⟨"m", -1⟩])).atoms.getD 1 ⟨"", 0⟩).exp < 0 := by
  constructor
  · exact (claim_C2 (Unit.mk [⟨"a", -1⟩]) (Unit.mk [⟨"m", -1⟩])).1
  · refine (claim_C2 (Unit.mk [⟨"a", -1⟩]) (Unit.mk [⟨"m", -1⟩])).2.2 0 1 (by norm_num)
      ?_ ?_
    · norm_num +decide [Unit.mul, sortByName, mergeLoop, mergeFinish, mergeStep,
        dropZeros, signReorder, nameLe]
    · norm_num +decide [Unit.mul, sortByName, mergeLoop, mergeFinish, mergeStep,
        dropZeros, signReorder, nameLe]

/-- C3 as stated is false: when one operand's range contains the other's, the
constructed node's range does not end at the larger end offset.  Combining
ranges `0..10` and `2..5` yields `0..5`, not `0..10`. -/
theorem claim_C3_counterexample :
    (Node.add (Node.mk NodeType.err ⟨0, 10⟩) (Node.mk NodeType.err ⟨2, 5⟩)).range ≠
      { start := min 0 2, stop := max 10 5 } := by
  decide

/-- C3 amended: for all four binary-operator constructors the result's range
starts at the smaller of the two start offsets, but it ends at the end offset
of the operand whose start offset is larger (the right operand when the left
starts first or both start together), which is the larger end offset only
when that operand also ends last. -/
theorem claim_C3 (n1 n2 : Node) :
    ((Node.add n1 n2).range.start = min n1.range.start n2.range.start ∧
      (Node.add n1 n2).range.stop =
        (if n2.range.start < n1.range.start then n1.range.stop else n2.range.stop)) ∧
    ((Node.sub n1 n2).range.start = min n1.range.start n2.range.start ∧
      (Node.sub n1 n2).range.stop =
        (if n2.range.start < n1.range.start then n1.range.stop else n2.range.stop)) ∧
    ((Node.mul n1 n2).range.start = min n1.range.start n2.range.start ∧
      (Node.mul n1 n2).range.stop =
        (if n2.range.start < n1.range.start then n1.range.stop else n2.range.stop)) ∧
    ((Node.div n1 n2).range.start = min n1.range.start n2.range.start ∧
      (Node.div n1 n2).range.stop =
        (if n2.range.start < n1.range.start then n1.range.stop else n2.range.stop)) := by
  have hstart : ∀ r1 r2 : SrcRange, (merge_ranges r1 r2).start = min r1.start r2.start := by
    intro r1 r2
    rw [merge_ranges]
    split_ifs with h
    · exact (min_eq_right (le_of_lt h)).symm
    · exact (min_eq_left (le_of_not_lt h)).symm
  have hstop : ∀ r1 r2 : SrcRange, (merge_ranges r1 r2).stop =
      if r2.start < r1.start then r1.stop else r2.stop := by
    intro r1 r2
    rw [merge_ranges]
    split_ifs with h
    · rfl
    · rfl
  exact ⟨⟨hstart _ _, hstop _ _⟩, ⟨hstart _ _, hstop _ _⟩,
    ⟨hstart _ _, hstop _ _⟩, ⟨hstart _ _, hstop _ _⟩⟩

/-- C8: a unit atom whose exponent is the exact integer 1 displays as the
bare name and any other exponent as `name^exponent`; the empty unit displays
as the empty string; and a dimensionless quantity displays as its value
followed by a trailing space and nothing else. -/
theorem claim_C8 :
    (∀ name : String, UnitAtom.display ⟨name, 1⟩ = name) ∧
    (∀ (name : String) (e : NumType), e ≠ 1 →
      UnitAtom.display ⟨name, e⟩ = name ++ "^" ++ renderQ e) ∧
    Unit.display Unit.none = "" ∧
    (∀ v : NumType, Quantity.display (Quantity.num v) = renderQ v ++ " ") := by
  refine ⟨fun name => ?_, fun name e he => ?_, rfl, fun v => ?_⟩
  · rw [UnitAtom.display, if_pos ⟨Rat.den_one, rfl⟩]
  · rw [UnitAtom.display, if_neg fun hc => he hc.2]
  · rw [Quantity.display]
    show renderQ v ++ " " ++ Unit.display Unit.none = renderQ v ++ " "
    rw [show Unit.display Unit.none = "" from rfl, String.append_empty]

/-- Witness for C8 at the spec's own examples: `m^1` displays as `m`, `m^2`
as `m^2`, and `Quantity.num 5` as `5 ` (trailing space, no brackets). -/
theorem claim_C8_witness :
    UnitAtom.display ⟨"m", 1⟩ = "m" ∧ UnitAtom.display ⟨"m", 2⟩ = "m^2" ∧
    Quantity.display (Quantity.num 5) = "5 " := by
  have h2 : renderQ 2 = "2" := by
    rw [renderQ, if_pos (by norm_num)]
    norm_num
    decide
  have h5 : renderQ 5 = "5" := by
    rw [renderQ, if_pos (by norm_num)]
    norm_num
    decide
  refine ⟨claim_C8.1 "m", ?_, ?_⟩
  · rw [claim_C8.2.1 "m" 2 (by norm_num), h2]
    decide
  · rw [claim_C8.2.2.2 5, h5]
    decide

/-- C9: each of the five compound-assignment constructions succeeds exactly
when the target node is currently a `Unit(name)` leaf, producing the matching
`*Assign` node that holds the name, the right-hand node and the merged range;
on every other node shape it aborts fatally (the source's `panic`, modelled
as `Option.none`). -/
theorem claim_C9 (s o : Node) :
    (∀ name, s.typ = NodeType.unit name →
      (Node.assign s o =
          some (Node.mk (NodeType.assign name o) (merge_ranges s.range o.range)) ∧
        Node.addAssign s o =
          some (Node.mk (NodeType.addAssign name o) (merge_ranges s.range o.range)) ∧
        Node.subAssign s o =
          some (Node.mk (NodeType.subAssign name o) (merge_ranges s.range o.range)) ∧
        Node.mulAssign s o =
          some (Node.mk (NodeType.mulAssign name o) (merge_ranges s.range o.range)) ∧
        Node.divAssign s o =
          some (Node.mk (NodeType.divAssign name o) (merge_ranges s.range o.range)))) ∧
    ((∀ name, ¬ s.typ = NodeType.unit name) →
      (Node.assign s o = Option.none ∧ Node.addAssign s o = Option.none ∧
        Node.subAssign s o = Option.none ∧ Node.mulAssign s o = Option.none ∧
        Node.divAssign s o = Option.none)) := by
  obtain ⟨t, r⟩ := s
  constructor
  · intro name h
    cases t <;> cases h
    exact ⟨rfl, rfl, rfl, rfl, rfl⟩
  · intro h
    cases t
    case unit n => exact absurd rfl (h n)
    all_goals exact ⟨rfl, rfl, rfl, rfl, rfl⟩

/-- Witness for C9: assigning to a `Unit` leaf produces the `Assign` node with
the merged range, while add-assigning to an `Err` node fails (the modelled
panic). -/
theorem claim_C9_witness :
    Node.assign (Node.mk (NodeType.unit "x") ⟨0, 1⟩) (Node.mk (NodeType.num 3) ⟨4, 5⟩) =
      some (Node.mk (NodeType.assign "x" (Node.mk (NodeType.num 3) ⟨4, 5⟩)) ⟨0, 5⟩) ∧
    Node.addAssign (Node.mk NodeType.err ⟨0, 1⟩) (Node.mk (NodeType.num 3) ⟨4, 5⟩) =
      Option.none := by
  constructor
  · exact ((claim_C9 (Node.mk (NodeType.unit "x") ⟨0, 1⟩)
      (Node.mk (NodeType.num 3) ⟨4, 5⟩)).1 "x" rfl).1
  · exact ((claim_C9 (Node.mk NodeType.err ⟨0, 1⟩)
      (Node.mk (NodeType.num 3) ⟨4, 5⟩)).2 (fun name h => by cases h)).2.1

end Morph
